import Mathlib

/-!
Verification of the audio-reading-aid playback controller.

Shallow embedding of the client-side playback controller of the
audio-reading-aid repository, together with its duration estimator and the
document-by-id HTTP route.  The embedded functions are translated from:

* `src/unnamed/part_004` — the `TextInput` component: the chunking regex
  (`text.match(/.{1,250}(\s|$)/g)`, lines 130-132), the prosody adjustments
  inside `playChunks` (lines 464-475), the chunk-sequencing callbacks
  (lines 436-513), `stopPlayback` (lines 532-538), `pausePlayback`,
  and `applyVoiceSettings` (lines 337-358);
* `src/unnamed/part_005` — `estimateReadingTime` (lines 21-26);
* `src/server/routes.ts` — `GET /api/documents/:id` (lines 68-85) and
  `src/server/storage.ts` — `SQLiteStorage.getDocument`.

JavaScript semantics that the embedding reproduces explicitly:

* `.` in a regex without the `s` flag matches every character except the four
  line terminators (U+000A, U+000D, U+2028, U+2029);
* `\s` matches the ECMAScript WhiteSpace and LineTerminator sets;
* `String.prototype.match` with a global regex returns the list of
  non-overlapping leftmost matches, advancing one position on failure;
* `.{1,250}` is greedy with backtracking, so the continuation `(\s|$)` is
  tried at the longest window first, `\s` before `$`;
* `"".split(/\s+/)` is `[""]` (length 1);
* `parseInt` skips leading whitespace, accepts an optional sign and an
  optional `0x`/`0X` hex prefix, parses the longest digit run and ignores
  trailing garbage, and yields NaN only when no digit was consumed.

React semantics used for the stateful component: `useState` values read
inside an event handler are the snapshot of the render that created the
handler; `useRef` cells are mutable and shared; a closure created in one
render (such as the `playChunks` scheduled by `applyVoiceSettings` through
`setTimeout`) keeps reading the state snapshot of that render.  Floating
point numbers are modelled as rationals.
-/

/-! ## Character classes of the JavaScript regex engine -/

/-- The four ECMAScript line terminators: the characters that `.` does not
match in a regex without the `s` flag. -/
def isLineTerm (c : Char) : Bool :=
  c = '\u000A' || c = '\u000D' || c = '\u2028' || c = '\u2029'

/-- The ECMAScript `\s` class (WhiteSpace ∪ LineTerminator): space, tab,
line feed, vertical tab, form feed, carriage return, NBSP, Ogham space,
the U+2000-200A range, the line/paragraph separators, narrow NBSP,
medium mathematical space, ideographic space and the BOM. -/
def isJsWs (c : Char) : Bool :=
  c = '\u0020' || c = '\u0009' || c = '\u000A' || c = '\u000B' || c = '\u000C' ||
  c = '\u000D' || c = '\u00A0' || c = '\u1680' ||
  ('\u2000' ≤ c && c ≤ '\u200A') ||
  c = '\u2028' || c = '\u2029' || c = '\u202F' || c = '\u205F' ||
  c = '\u3000' || c = '\uFEFF'

/-! ## The chunking regex `/.{1,250}(\s|$)/g` (src/unnamed/part_004:130-132)

`const chunks = text ? text.match(/.{1,250}(\s|$)/g) || [] : [];`

A single match at a given position consists of a greedy window of one to 250
non-line-terminator characters followed by either a `\s` character (included
in the match, it is the capture group) or the end of the input.  Greedy
backtracking means: the longest window whose continuation succeeds wins, and
at a given window length the `\s` alternative is preferred over `$` (the two
can never both apply).  When no window length works the scan advances one
character. -/

/-- Longest prefix of at most `n` characters all satisfying `p`: the text the
greedy `.{1,n}` can cover from the current position. -/
def takeWhileUpTo : Nat → (Char → Bool) → List Char → List Char
  | 0, _, _ => []
  | _ + 1, _, [] => []
  | n + 1, p, c :: cs => if p c then c :: takeWhileUpTo n p cs else []

/-- Index of the last element of `l` satisfying `p`, if any.  Used for the
backtracking search: the greedy matcher needs the largest window length whose
following character is whitespace. -/
def lastIdxWith (p : Char → Bool) : List Char → Option Nat
  | [] => none
  | c :: cs =>
    match lastIdxWith p cs with
    | some j => some (j + 1)
    | none => if p c then some 0 else none

/-- One attempt of the regex `.{1,250}(\s|$)` at the current position.
Returns the matched text and the remaining input, or `none` when no window
length from 250 down to 1 has a valid continuation.

`run` is the longest stretch `.{1,250}` can cover.  If the input ends there,
`$` accepts the full window.  If a character follows and is `\s` (either a
line terminator that stopped the window, or ordinary whitespace after a full
250-character window), the greedy longest window wins and the whitespace
character is part of the match.  Otherwise the window was cut off at 250
inside a word and the matcher backtracks to the last whitespace strictly
inside the window (the continuation after `m` matched characters is `run[m]`,
`m ≥ 1`); if there is none the attempt fails. -/
def matchAt (s : List Char) : Option (List Char × List Char) :=
  let run := takeWhileUpTo 250 (fun c => !(isLineTerm c)) s
  if run.length = 0 then none
  else
    match s.drop run.length with
    | [] => some (run, [])
    | c :: rs =>
      if isJsWs c then some (run ++ [c], rs)
      else
        match lastIdxWith isJsWs run.tail with
        | some j => some (run.take (j + 2), run.drop (j + 2) ++ (c :: rs))
        | none => none

/-- Model of `String.prototype.match` with the global flag: collect the leftmost
matches, resuming after each match and advancing one character when the
attempt at the current position fails.  Every match consumes at least one
character, so `fuel = length of the input` suffices. -/
def jsMatchAll : Nat → List Char → List (List Char)
  | 0, _ => []
  | _ + 1, [] => []
  | fuel + 1, c :: cs =>
    match matchAt (c :: cs) with
    | some (m, r) => m :: jsMatchAll fuel r
    | none => jsMatchAll fuel cs

/-- The chunk sequence of a character list. -/
def chunksList (l : List Char) : List (List Char) :=
  jsMatchAll l.length l

/-- The chunk sequence of the component's `text` state
(src/unnamed/part_004:130-132).  The source guards `text ? … : []` and
defaults a null match result to `[]`; both cases coincide with `jsMatchAll`
returning `[]` on empty input and on inputs without any match. -/
def chunksOfText (s : String) : List (List Char) :=
  chunksList s.data

/-- Whether a chunk ends with a `\s` character (the captured break
delimiter). -/
def endsWithWs (l : List Char) : Bool :=
  match l.getLast? with
  | some c => isJsWs c
  | none => false

/-- Predicate `hasLongRun l` is true when `l` contains 250 consecutive characters none
of which is `\s` whitespace.  Such a stretch is exactly what makes the
boundary-seeking regex drop characters. -/
def hasLongRun : List Char → Bool
  | [] => false
  | c :: cs =>
    (decide (250 ≤ (c :: cs).length) && ((c :: cs).take 250).all (fun d => !(isJsWs d)))
    || hasLongRun cs

/-- Spec-side predicate, following the words of the spec for claim C5:
"text is empty/whitespace-only". -/
def specWhitespaceOnly (s : String) : Bool :=
  s.data.all isJsWs

/-! ## Voice settings and utterances (src/unnamed/part_004:42-48, 366-385) -/

/-- The `VoiceSettings` interface of src/unnamed/part_004:43-48.  The
floating-point `rate`, `pitch`, `volume` are modelled as rationals. -/
structure VoiceSettings where
  voiceURI : Option String
  rate : ℚ
  pitch : ℚ
  volume : ℚ
deriving DecidableEq

/-- The parameters carried by a `SpeechSynthesisUtterance` that the component
sets before submitting it. -/
structure Utterance where
  text : List Char
  voiceURI : Option String
  rate : ℚ
  pitch : ℚ
  volume : ℚ
deriving DecidableEq

/-- Model of `createUtterance` (src/unnamed/part_004:367-385): a fresh utterance for
`text` carrying the given settings unchanged. -/
def createUtterance (settings : VoiceSettings) (t : List Char) : Utterance :=
  { text := t
    voiceURI := settings.voiceURI
    rate := settings.rate
    pitch := settings.pitch
    volume := settings.volume }

/-- Test `text.match(/[.!?]$/)` on a chunk: its last character is `.`, `!` or `?`
(`$` in a JavaScript regex without the `m` flag matches only at the very
end). -/
def endsSentencePunct (t : List Char) : Bool :=
  match t.getLast? with
  | some c => c = '.' || c = '!' || c = '?'
  | none => false

/-- Test `text.match(/\?$/)` on a chunk: its last character is `?`. -/
def isQuestionPunct (t : List Char) : Bool :=
  match t.getLast? with
  | some c => c = '?'
  | none => false

/-- The utterance `speakChunk` submits for a chunk text
(src/unnamed/part_004:463-475): `createUtterance` with the session's
settings, then `utterance.rate = Math.max(0.7, voiceSettings.rate - 0.1)`
when the chunk matches `[.!?]$`, then
`utterance.pitch = Math.min(2.0, voiceSettings.pitch + 0.1)` when it matches
`\?$`. -/
def effectiveUtterance (settings : VoiceSettings) (t : List Char) : Utterance :=
  let u := createUtterance settings t
  let u := if endsSentencePunct t then
    { u with rate := max (7/10) (settings.rate - 1/10) } else u
  let u := if isQuestionPunct t then
    { u with pitch := min 2 (settings.pitch + 1/10) } else u
  u

/-! ## The playback state machine (src/unnamed/part_004:436-545)

The component state observed by the claims:

* React `useState` values `isPlaying`, `currentChunkIndex`, `voiceSettings`,
  `tempVoiceSettings` — committed immediately between events; an event
  handler reads the snapshot taken at its entry;
* `useRef` cells `isPausedRef` and the wake-lock sentinel — mutable, shared
  by every render and callback;
* the speech-synthesis channel, modelled as the list of utterances submitted
  and not yet cancelled (`speechSynthesis.cancel()` clears it);
* the closure state of the most recent `playChunks` call: its shared mutable
  `let index` variable, the settings snapshot it captured from its render,
  and the `const text = chunks[index]` captured by the pending `onend`
  callback. -/

structure World where
  isPlaying : Bool
  currentChunkIndex : Option Nat
  voiceSettings : VoiceSettings
  tempVoiceSettings : VoiceSettings
  isPausedRef : Bool
  wakeLockHeld : Bool
  speaking : List Utterance
  sessionIndex : Nat
  sessionSettings : VoiceSettings
  inflightText : List Char
deriving DecidableEq

/-- The body of `speakChunk` (src/unnamed/part_004:451-510).  It reads the
session's mutable `index` and the `isPausedRef` ref:
`if (index >= chunks.length || isPausedRef.current) { if (index >= chunks.length) { setIsPlaying(false); setCurrentChunkIndex(null); releaseWakeLock(); } return; }`,
otherwise it publishes the cursor, builds the prosody-adjusted utterance from
the settings captured by this `playChunks` closure and submits it. -/
def speakChunkStep (chunks : List (List Char)) (w : World) : World :=
  if chunks.length ≤ w.sessionIndex ∨ w.isPausedRef = true then
    if chunks.length ≤ w.sessionIndex then
      { w with isPlaying := false, currentChunkIndex := none, wakeLockHeld := false }
    else w
  else
    let t := chunks.getD w.sessionIndex []
    let u := effectiveUtterance w.sessionSettings t
    { w with currentChunkIndex := some w.sessionIndex
             inflightText := t
             speaking := w.speaking ++ [u] }

/-- Model of `playChunks(startIndex)` (src/unnamed/part_004:436-513) up to and
including the first synchronous `speakChunk()` call: return unchanged when
there are no chunks; otherwise `speechSynthesis.cancel()`, request the wake
lock (modelled as successful acquisition), create the session closure
(`let index = startIndex` and the captured render settings),
`setIsPlaying(true)`, `isPausedRef.current = false`, then `speakChunk()`.
`renderSettings` is the `voiceSettings` snapshot of the render that created
this `playChunks` closure. -/
def playChunksInit (chunks : List (List Char)) (renderSettings : VoiceSettings)
    (startIndex : Nat) (w : World) : World :=
  if chunks.length = 0 then w
  else
    let w := { w with speaking := [] }
    let w := { w with wakeLockHeld := true }
    let w := { w with sessionIndex := startIndex
                      sessionSettings := renderSettings
                      isPlaying := true
                      isPausedRef := false }
    speakChunkStep chunks w

/-- Model of `stopPlayback` (src/unnamed/part_004:532-538): `speechSynthesis.cancel()`,
`setIsPlaying(false)`, `setCurrentChunkIndex(null)`,
`isPausedRef.current = false`, release the wake lock. -/
def stopPlayback (w : World) : World :=
  { w with speaking := []
           isPlaying := false
           currentChunkIndex := none
           isPausedRef := false
           wakeLockHeld := false }

/-- Model of `pausePlayback` (src/unnamed/part_004:515-519): `speechSynthesis.pause()`
(the queued utterance stays suspended), `setIsPlaying(false)`,
`isPausedRef.current = true`. -/
def pausePlayback (w : World) : World :=
  { w with isPlaying := false, isPausedRef := true }

/-- The `onend` callback of the submitted utterance
(src/unnamed/part_004:477-482): `index++`, then
`const pause = text.match(/[.!?]$/) ? 350 : 200; setTimeout(speakChunk, pause);`
where `text` is the chunk text this callback captured at submission.
Returns the updated world together with the scheduled delay in milliseconds;
the timer firing is `speakChunkStep`. -/
def onendStep (w : World) : World × Nat :=
  ({ w with sessionIndex := w.sessionIndex + 1 },
   if endsSentencePunct w.inflightText then 350 else 200)

/-- Model of `applyVoiceSettings` (src/unnamed/part_004:337-358).  The handler reads
the state snapshot of its render: `setVoiceSettings({...tempVoiceSettings})`
commits the draft for subsequent renders, then
`if (isPlaying || isPausedRef.current) { stopPlayback(); if (currentChunkIndex !== null) setTimeout(() => playChunks(currentChunkIndex), 100); }`.
The `playChunks` invoked by that timeout is the closure of the render that
ran the handler, so the session it starts captures that render's
`voiceSettings` snapshot (`settingsSnap`), not the newly committed draft.
The timer firing is folded into this function. -/
def applyVoiceSettings (chunks : List (List Char)) (w : World) : World :=
  let settingsSnap := w.voiceSettings
  let cursorSnap := w.currentChunkIndex
  let playingSnap := w.isPlaying
  let w1 := { w with voiceSettings := w.tempVoiceSettings }
  if playingSnap = true ∨ w1.isPausedRef = true then
    let w2 := stopPlayback w1
    match cursorSnap with
    | some k => playChunksInit chunks settingsSnap k w2
    | none => w2
  else w1

/-- The component's initial settings (src/unnamed/part_004:77-82):
rate 0.9, pitch 1.0, volume 1.0, no voice chosen yet. -/
def defaultSettings : VoiceSettings :=
  { voiceURI := none, rate := 9/10, pitch := 1, volume := 1 }

/-- The idle component as mounted: nothing playing, no cursor, refs clear,
no utterance submitted. -/
def initialWorld : World :=
  { isPlaying := false
    currentChunkIndex := none
    voiceSettings := defaultSettings
    tempVoiceSettings := defaultSettings
    isPausedRef := false
    wakeLockHeld := false
    speaking := []
    sessionIndex := 0
    sessionSettings := defaultSettings
    inflightText := [] }

/-- A world paused mid-delay: used to instantiate the pacing theorem. -/
def pausedWorld : World :=
  { initialWorld with isPausedRef := true }

/-! ## Duration estimation (src/unnamed/part_005:21-26) -/

/-- Number of maximal runs of non-`\s` characters, tracking whether the scan
is currently inside such a run. -/
def countWordsGo : Bool → List Char → Nat
  | _, [] => 0
  | inWord, c :: cs =>
    if isJsWs c then countWordsGo false cs
    else (if inWord then 0 else 1) + countWordsGo true cs

/-- Number of maximal runs of non-`\s` characters in `l`: the pieces
`split(/\s+/)` produces on a trimmed string. -/
def countWords (l : List Char) : Nat :=
  countWordsGo false l

/-- Model of `String.prototype.trim`: drop `\s` characters from both ends. -/
def jsTrim (l : List Char) : List Char :=
  ((l.dropWhile isJsWs).reverse.dropWhile isJsWs).reverse

/-- Model of `text.trim().split(/\s+/).length` (src/unnamed/part_005:23).  Splitting
the empty string yields `[""]`, of length 1; splitting a non-empty trimmed
string yields exactly its maximal non-whitespace runs. -/
def jsSplitWsCount (l : List Char) : Nat :=
  let t := jsTrim l
  if t.isEmpty then 1 else countWords t

/-- Model of `estimateReadingTime` (src/unnamed/part_005:21-26):
`words / (150 / playbackSpeed) * 60` seconds. -/
def estimateReadingTime (l : List Char) (playbackSpeed : ℚ) : ℚ :=
  let words : ℚ := jsSplitWsCount l
  let wordsPerMinute : ℚ := 150 / playbackSpeed
  (words / wordsPerMinute) * 60

/-- Spec-side word count, following the words of claim C8: "the number of
whitespace-separated words in the trimmed text" — zero for an empty or
whitespace-only text. -/
def specWordCount (l : List Char) : Nat :=
  countWords (jsTrim l)

/-- Spec-side estimate, following the formula of claim C8 with the spec's
word count. -/
def specEstimate (l : List Char) (rate : ℚ) : ℚ :=
  (specWordCount l : ℚ) / (150 / rate) * 60

/-! ## GET /api/documents/:id (src/server/routes.ts:68-85) -/

/-- Decimal digit. -/
def isDecDigit (c : Char) : Bool :=
  '0' ≤ c && c ≤ '9'

/-- Hexadecimal digit. -/
def isHexDigit (c : Char) : Bool :=
  ('0' ≤ c && c ≤ '9') || ('a' ≤ c && c ≤ 'f') || ('A' ≤ c && c ≤ 'F')

/-- Value of a hexadecimal digit. -/
def hexVal (c : Char) : Nat :=
  if '0' ≤ c && c ≤ '9' then c.toNat - '0'.toNat
  else if 'a' ≤ c && c ≤ 'f' then 10 + (c.toNat - 'a'.toNat)
  else if 'A' ≤ c && c ≤ 'F' then 10 + (c.toNat - 'A'.toNat)
  else 0

/-- Value of a digit list read in the given base, most significant first. -/
def natOfDigits (base : Nat) (val : Char → Nat) (l : List Char) : Nat :=
  l.foldl (fun a c => a * base + val c) 0

/-- Unsigned part of `parseInt`: an optional `0x`/`0X` prefix selects base 16,
otherwise the longest run of decimal digits is read; `none` when no digit was
consumed (`parseInt` returns NaN). -/
def jsParseIntBody : List Char → Option Nat
  | '0' :: x :: r =>
    if x = 'x' || x = 'X' then
      let ds := r.takeWhile isHexDigit
      if ds.isEmpty then none else some (natOfDigits 16 hexVal ds)
    else
      let ds := ('0' :: x :: r).takeWhile isDecDigit
      if ds.isEmpty then none else some (natOfDigits 10 (fun c => c.toNat - '0'.toNat) ds)
  | l =>
    let ds := l.takeWhile isDecDigit
    if ds.isEmpty then none else some (natOfDigits 10 (fun c => c.toNat - '0'.toNat) ds)

/-- Model of `parseInt(s)` with no radix argument: skip leading whitespace, read an
optional sign, then the body; `none` models NaN.  Trailing non-digit
characters are ignored. -/
def jsParseInt (s : List Char) : Option Int :=
  match s.dropWhile isJsWs with
  | '-' :: r => (jsParseIntBody r).map (fun n => -(n : Int))
  | '+' :: r => (jsParseIntBody r).map (fun n => (n : Int))
  | r => (jsParseIntBody r).map (fun n => (n : Int))

/-- A row of the `documents` table (shared schema): id, title, content,
creation timestamp. -/
structure StoredDoc where
  id : Int
  title : String
  content : String
  createdAt : String
deriving DecidableEq

/-- Model of `SQLiteStorage.getDocument` (src/server/storage.ts:30-33):
`SELECT * FROM documents WHERE id = ?`, first matching row or undefined. -/
def getDocument (store : List StoredDoc) (i : Int) : Option StoredDoc :=
  store.find? (fun d => d.id = i)

/-- The three outcomes of the get-by-id route relevant to the claim. -/
inductive DocResponse where
  | badRequest
  | notFound
  | ok (d : StoredDoc)
deriving DecidableEq

/-- Model of `GET /api/documents/:id` (src/server/routes.ts:68-85):
`const id = parseInt(req.params.id); if (isNaN(id)) return 400;` then 404
when the storage lookup is empty, otherwise the document as the body. -/
def getDocumentRoute (store : List StoredDoc) (idParam : List Char) : DocResponse :=
  match jsParseInt idParam with
  | none => DocResponse.badRequest
  | some i =>
    match getDocument store i with
    | none => DocResponse.notFound
    | some d => DocResponse.ok d

/-- Spec-side predicate, following the words of claim C9: a "numeric" id is a
non-empty string of decimal digits. -/
def specNumericId (s : List Char) : Bool :=
  !s.isEmpty && s.all isDecDigit

/-! ## Concrete playback scenarios used by the temporal claims -/

/-- New settings applied mid-playback in the C7 scenario: rate 1.5. -/
def c7NewSettings : VoiceSettings :=
  { voiceURI := none, rate := 3/2, pitch := 1, volume := 1 }

/-- Component playing chunk 1 of three chunks under the default settings,
with the raised rate already chosen in the settings dialog's draft. -/
def c7World : World :=
  { isPlaying := true
    currentChunkIndex := some 1
    voiceSettings := defaultSettings
    tempVoiceSettings := c7NewSettings
    isPausedRef := false
    wakeLockHeld := true
    speaking := [createUtterance defaultSettings ['b']]
    sessionIndex := 1
    sessionSettings := defaultSettings
    inflightText := ['b'] }

/-- The world after clicking Apply Settings in `c7World` (including the
100 ms restart timer firing). -/
def c7After : World :=
  applyVoiceSettings [['a'], ['b'], ['c']] c7World

/-- C1 scenario, after `play(0)` on two chunks and then `stop()`. -/
def c1AfterStop : World :=
  stopPlayback (playChunksInit [['a'], ['b']] defaultSettings 0 initialWorld)

/-- C1 scenario, after the stale `onend` of the cancelled utterance fires and
its pacing timer elapses. -/
def c1AfterStale : World :=
  speakChunkStep [['a'], ['b']] (onendStep c1AfterStop).1

/-- C4 scenario: `play(0)` on two chunks, normal `onend` of chunk 0
(scheduling the inter-chunk delay), then `stop()` issued during the delay. -/
def c4AfterStop : World :=
  stopPlayback (onendStep (playChunksInit [['x'], ['y']] defaultSettings 0 initialWorld)).1

/-- C4 scenario, after the pending delay timer fires despite the stop. -/
def c4AfterTimer : World :=
  speakChunkStep [['x'], ['y']] c4AfterStop

/-- A concrete stored document used to instantiate the route theorem. -/
def c9Doc : StoredDoc :=
  { id := 1, title := "t", content := "c", createdAt := "2024-01-01" }

/-! ## Theorems -/

/-- C2: `stop()` is valid from every state and always yields the Idle state —
it cancels any in-flight utterance, sets the playing flag to false and the
cursor to null, and releases the wake-resource; in particular `play(0)`
followed immediately by `stop()` yields Idle with cursor null even if no
completion callback ever fires. -/
theorem c2_stop_always_idle :
    ∀ (w : World) (chunks : List (List Char)) (s : VoiceSettings),
      ((stopPlayback w).isPlaying = false ∧
       (stopPlayback w).currentChunkIndex = none ∧
       (stopPlayback w).isPausedRef = false ∧
       (stopPlayback w).wakeLockHeld = false ∧
       (stopPlayback w).speaking = []) ∧
      ((stopPlayback (playChunksInit chunks s 0 w)).isPlaying = false ∧
       (stopPlayback (playChunksInit chunks s 0 w)).currentChunkIndex = none ∧
       (stopPlayback (playChunksInit chunks s 0 w)).wakeLockHeld = false ∧
       (stopPlayback (playChunksInit chunks s 0 w)).speaking = []) := by
  intro w chunks s
  exact ⟨⟨rfl, rfl, rfl, rfl, rfl⟩, rfl, rfl, rfl, rfl⟩

/-- C3: prosody derivation — for every base settings and every chunk, the
submitted utterance has rate `max 0.7 (rate − 0.1)` exactly when the chunk
ends a sentence, pitch `min 2.0 (pitch + 0.1)` exactly when it is a
question (so both adjustments apply to a chunk ending in `?`), and the
volume is always passed through unchanged. -/
theorem c3_prosody_derivation :
    ∀ (s : VoiceSettings) (t : List Char),
      (effectiveUtterance s t).rate =
        (if endsSentencePunct t then max (7/10) (s.rate - 1/10) else s.rate) ∧
      (effectiveUtterance s t).pitch =
        (if isQuestionPunct t then min 2 (s.pitch + 1/10) else s.pitch) ∧
      (effectiveUtterance s t).volume = s.volume ∧
      (effectiveUtterance s t).text = t := by
  intro s t
  unfold effectiveUtterance createUtterance
  by_cases h1 : endsSentencePunct t <;> by_cases h2 : isQuestionPunct t <;>
    simp [h1, h2]

/-- C1: stale-callback safety FAILS on the code.  After `play(0)` on
`["a","b"]` and then `stop()` the state is Idle, but when the completion
callback of the cancelled utterance fires and its pacing timer elapses, the
continuation resubmits chunk 1 and publishes cursor 1: `stop()` resets
`isPausedRef` to false and there is no session token, so the stale callback
resurrects the cancelled session instead of being ignored. -/
theorem c1_stale_callback_resurrects_session :
    (c1AfterStop.isPlaying = false ∧
     c1AfterStop.currentChunkIndex = none ∧
     c1AfterStop.speaking = []) ∧
    (c1AfterStale.currentChunkIndex = some 1 ∧
     c1AfterStale.speaking.length = 1 ∧
     c1AfterStale.isPlaying = false) := by
  decide

/-- C4, counterexample: the inter-chunk delay is NOT cancellable by `stop()`.
After `play(0)` on `["x","y"]`, a normal completion of chunk 0 schedules a
200 ms delay; a `stop()` issued during the delay leaves the speech channel
empty, yet when the timer fires the continuation submits chunk 1 and
publishes cursor 1 instead of doing nothing. -/
theorem c4_stop_does_not_cancel_delay :
    (onendStep (playChunksInit [['x'], ['y']] defaultSettings 0 initialWorld)).2 = 200 ∧
    c4AfterStop.speaking = [] ∧
    c4AfterStop.currentChunkIndex = none ∧
    c4AfterTimer.speaking.length = 1 ∧
    c4AfterTimer.currentChunkIndex = some 1 := by
  decide

/-- C4, amended: on normal completion of a chunk the engine waits 350 ms if
the completed chunk ended a sentence and 200 ms otherwise before the next
submission, and a `pause()` issued during the delay makes the delayed
continuation do nothing (when the completed chunk was not the last); a
`stop()` issued during the delay does not cancel the continuation. -/
theorem c4_delay_and_pause_cancellation :
    ∀ (chunks : List (List Char)) (w : World),
      (onendStep w).2 = (if endsSentencePunct w.inflightText then 350 else 200) ∧
      (w.isPausedRef = true → w.sessionIndex < chunks.length →
        speakChunkStep chunks w = w) := by
  intro chunks w
  refine ⟨rfl, fun hp hi => ?_⟩
  unfold speakChunkStep
  rw [if_pos (Or.inr hp), if_neg (by omega)]

/-- Witness for `c4_delay_and_pause_cancellation`: in a paused world holding
one chunk and an in-flight text without sentence punctuation, the delayed
continuation leaves the world unchanged and the scheduled delay is 200 ms. -/
theorem c4_delay_and_pause_cancellation_witness :
    speakChunkStep [['a']] pausedWorld = pausedWorld ∧
    (onendStep pausedWorld).2 = 200 := by
  exact ⟨(c4_delay_and_pause_cancellation [['a']] pausedWorld).2 rfl (by decide),
         by decide⟩

/-- C7: restart-on-settings-change is only half delivered by the code.
Applying new settings while playing chunk 1 cancels the old utterance and
resubmits chunk 1 (stop-then-play at the cursor), and the new settings are
committed — but the restarted session is the `playChunks` closure of the
render that ran the handler, so the utterance it submits carries the OLD
rate (0.9), not the newly committed rate (1.5), contradicting the code's own
comment "If currently playing, restart with new settings". -/
theorem c7_restart_uses_stale_settings :
    c7After.currentChunkIndex = some 1 ∧
    c7After.isPlaying = true ∧
    c7After.voiceSettings = c7NewSettings ∧
    c7After.speaking.map Utterance.rate = [defaultSettings.rate] ∧
    defaultSettings.rate ≠ c7NewSettings.rate := by
  refine ⟨rfl, rfl, rfl, rfl, ?_⟩
  show (9/10 : ℚ) ≠ 3/2
  norm_num


theorem twu_append_drop (n : Nat) (p : Char → Bool) (l : List Char) :
    takeWhileUpTo n p l ++ l.drop (takeWhileUpTo n p l).length = l := by
  induction n generalizing l with
  | zero => simp [takeWhileUpTo]
  | succ n ih =>
    cases l with
    | nil => simp [takeWhileUpTo]
    | cons c cs =>
      by_cases h : p c
      · simp only [takeWhileUpTo, h, if_true, List.length_cons, List.drop_succ_cons,
          List.cons_append]
        rw [ih]
      · simp [takeWhileUpTo, h]

theorem twu_length_le (n : Nat) (p : Char → Bool) (l : List Char) :
    (takeWhileUpTo n p l).length ≤ n := by
  induction n generalizing l with
  | zero => simp [takeWhileUpTo]
  | succ n ih =>
    cases l with
    | nil => simp [takeWhileUpTo]
    | cons c cs =>
      by_cases h : p c
      · simpa [takeWhileUpTo, h] using ih cs
      · simp [takeWhileUpTo, h]

theorem twu_all (n : Nat) (p : Char → Bool) (l : List Char) :
    (takeWhileUpTo n p l).all p = true := by
  induction n generalizing l with
  | zero => simp [takeWhileUpTo]
  | succ n ih =>
    cases l with
    | nil => simp [takeWhileUpTo]
    | cons c cs =>
      by_cases h : p c
      · simpa [takeWhileUpTo, h] using ih cs
      · simp [takeWhileUpTo, h]

theorem twu_eq_take (n : Nat) (p : Char → Bool) (l : List Char)
    (h : l.all p = true) : takeWhileUpTo n p l = l.take n := by
  induction n generalizing l with
  | zero => simp [takeWhileUpTo]
  | succ n ih =>
    cases l with
    | nil => simp [takeWhileUpTo]
    | cons c cs =>
      simp only [List.all_cons, Bool.and_eq_true] at h
      simp [takeWhileUpTo, h.1, List.take_succ_cons, ih cs h.2]

theorem matchAt_eq (l : List Char) :
    matchAt l =
      (fun run =>
        if run.length = 0 then none
        else
          match l.drop run.length with
          | [] => some (run, [])
          | c :: rs =>
            if isJsWs c then some (run ++ [c], rs)
            else
              match lastIdxWith isJsWs run.tail with
              | some j => some (run.take (j + 2), run.drop (j + 2) ++ (c :: rs))
              | none => none)
      (takeWhileUpTo 250 (fun c => !(isLineTerm c)) l) := rfl

theorem lastIdxWith_none (p : Char → Bool) (l : List Char)
    (h : lastIdxWith p l = none) : l.all (fun c => !(p c)) = true := by
  induction l with
  | nil => rfl
  | cons c cs ih =>
    simp only [lastIdxWith] at h
    cases hcs : lastIdxWith p cs with
    | some j => rw [hcs] at h; exact absurd h (by simp)
    | none =>
      rw [hcs] at h
      by_cases hc : p c
      · rw [if_pos hc] at h; exact absurd h (by simp)
      · simp [hc, ih hcs]

theorem lastIdxWith_some (p : Char → Bool) (l : List Char) (j : Nat)
    (h : lastIdxWith p l = some j) :
    j < l.length ∧ ∃ c, l.get? j = some c ∧ p c = true := by
  induction l generalizing j with
  | nil => exact absurd h (by simp [lastIdxWith])
  | cons c cs ih =>
    simp only [lastIdxWith] at h
    cases hcs : lastIdxWith p cs with
    | some i =>
      rw [hcs] at h
      obtain rfl : i + 1 = j := by injection h
      obtain ⟨hlt, d, hd, hpd⟩ := ih i hcs
      exact ⟨by simpa using Nat.succ_lt_succ hlt, d, by simpa using hd, hpd⟩
    | none =>
      rw [hcs] at h
      by_cases hc : p c
      · rw [if_pos hc] at h
        obtain rfl : 0 = j := by injection h
        exact ⟨by simp, c, rfl, hc⟩
      · rw [if_neg hc] at h; exact absurd h (by simp)

theorem lt_imp_ws (e : Char) (he : isLineTerm e = true) : isJsWs e = true := by
  simp only [isLineTerm, Bool.or_eq_true, decide_eq_true_eq] at he
  obtain ((h | h) | h) | h := he <;> subst h <;> decide

theorem matchAt_some_append {l m r : List Char} (h : matchAt l = some (m, r)) :
    m ++ r = l ∧ m ≠ [] := by
  have had := twu_append_drop 250 (fun c => !(isLineTerm c)) l
  simp only [matchAt_eq] at h
  set run := takeWhileUpTo 250 (fun c => !(isLineTerm c)) l with hrun
  split at h
  · exact absurd h (by simp)
  · rename_i h0
    have hrne : run ≠ [] := fun hh => h0 (by simp [hh])
    split at h
    · rename_i heq
      simp only [Option.some.injEq, Prod.mk.injEq] at h
      obtain ⟨rfl, rfl⟩ := h
      constructor
      · rw [← had, heq]
      · exact hrne
    · rename_i c' rs heq
      split at h
      · rename_i hws
        simp only [Option.some.injEq, Prod.mk.injEq] at h
        obtain ⟨rfl, rfl⟩ := h
        constructor
        · rw [List.append_assoc, List.singleton_append, ← heq, had]
        · simp
      · split at h
        · rename_i j hlast
          simp only [Option.some.injEq, Prod.mk.injEq] at h
          obtain ⟨rfl, rfl⟩ := h
          constructor
          · rw [← List.append_assoc, List.take_append_drop, ← heq, had]
          · intro hh
            rw [List.take_eq_nil_iff] at hh
            rcases hh with hh | hh
            · simp at hh
            · exact hrne hh
        · exact absurd h (by simp)

theorem tail_take (l : List Char) (n : Nat) : (l.take (n + 1)).tail = l.tail.take n := by
  cases l <;> simp

theorem hasLongRun_cons_eq (c : Char) (cs : List Char) :
    hasLongRun (c :: cs) =
      ((decide (250 ≤ (c :: cs).length) && ((c :: cs).take 250).all (fun d => !(isJsWs d)))
       || hasLongRun cs) := rfl

theorem hasLongRun_cons_false {c : Char} {cs : List Char}
    (h : hasLongRun (c :: cs) = false) : hasLongRun cs = false := by
  rw [hasLongRun_cons_eq, Bool.or_eq_false_iff] at h
  exact h.2

theorem hasLongRun_drop_false {l : List Char} (n : Nat)
    (h : hasLongRun l = false) : hasLongRun (l.drop n) = false := by
  induction n generalizing l with
  | zero => exact h
  | succ n ih =>
    cases l with
    | nil => exact h
    | cons c cs => exact ih (hasLongRun_cons_false h)

theorem all_drop {p : Char → Bool} {l : List Char} (n : Nat)
    (h : l.all p = true) : (l.drop n).all p = true := by
  induction n generalizing l with
  | zero => exact h
  | succ n ih =>
    cases l with
    | nil => exact h
    | cons c cs =>
      simp only [List.all_cons, Bool.and_eq_true] at h
      exact ih h.2

theorem matchAt_success (l : List Char) (hne : l ≠ [])
    (hLT : l.all (fun c => !(isLineTerm c)) = true)
    (hlr : hasLongRun l = false) :
    matchAt l ≠ none := by
  intro h
  have htake := twu_eq_take 250 (fun c => !(isLineTerm c)) l hLT
  simp only [matchAt_eq] at h
  set run := takeWhileUpTo 250 (fun c => !(isLineTerm c)) l with hrun
  have hlen0 : l.length ≠ 0 := by simpa [List.length_eq_zero] using hne
  split at h
  · rename_i h0
    rw [htake, List.length_take] at h0
    omega
  · rename_i h0
    split at h
    · simp at h
    · rename_i c' rs heq
      split at h
      · simp at h
      · rename_i hws
        split at h
        · simp at h
        · rename_i hlast
          -- the failing backtrack requires a 250-character whitespace-free
          -- stretch starting at index 1, contradicting hasLongRun l = false
          have hrl : run.length = 250 ∧ 250 < l.length := by
            have h1 : run.length < l.length := by
              by_contra hcon
              rw [List.drop_eq_nil_of_le (by omega)] at heq
              cases heq
            rw [htake, List.length_take] at h1 ⊢
            omega
          have htws : run.tail.all (fun d => !(isJsWs d)) = true :=
            lastIdxWith_none _ _ hlast
          have hwsc' : isJsWs c' = false := by simpa using hws
          cases l with
          | nil => exact hne rfl
          | cons x xs =>
            have hxs : hasLongRun xs = false := hasLongRun_cons_false hlr
            have hdropxs : xs.drop 249 = c' :: rs := by
              have : (x :: xs).drop run.length = (x :: xs).drop 250 := by
                rw [hrl.1]
              rw [this] at heq
              rw [show (250 : Nat) = 249 + 1 from rfl, List.drop_succ_cons] at heq
              exact heq
            have e1 : run.tail = xs.take 249 := by
              rw [htake, show (250 : Nat) = 249 + 1 from rfl, List.take_succ_cons,
                List.tail_cons]
            have htt : xs.take 250 = run.tail ++ [c'] := by
              rw [show (250 : Nat) = 249 + 1 from rfl, List.take_add, hdropxs, ← e1]
              simp
            cases xs with
            | nil =>
              have := hrl.2
              simp at this
            | cons e es =>
              have hcontra : hasLongRun (e :: es) = true := by
                have hlen : 250 ≤ (e :: es).length := by
                  have := hrl.2
                  simp at this ⊢
                  omega
                have hall : ((e :: es).take 250).all (fun d => !(isJsWs d)) = true := by
                  rw [htt, List.all_append]
                  simp [htws, hwsc']
                have hdec : decide (250 ≤ (e :: es).length) = true := by
                  simpa using hlen
                rw [hasLongRun_cons_eq, hdec, hall]
                rfl
              rw [hxs] at hcontra
              cases hcontra

theorem jsMatchAll_nil (fuel : Nat) : jsMatchAll fuel [] = [] := by
  cases fuel <;> rfl

theorem jsMatchAll_cons (fuel : Nat) (c : Char) (cs : List Char) :
    jsMatchAll (fuel + 1) (c :: cs) =
      (match matchAt (c :: cs) with
       | some (m, r) => m :: jsMatchAll fuel r
       | none => jsMatchAll fuel cs) := rfl

theorem matchAt_LT_head {c : Char} {cs : List Char} (hc : isLineTerm c = true) :
    matchAt (c :: cs) = none := by
  have hrun : takeWhileUpTo 250 (fun d => !(isLineTerm d)) (c :: cs) = [] := by
    rw [show (250 : Nat) = 249 + 1 from rfl]
    simp only [takeWhileUpTo, hc]
    rfl
  simp [matchAt_eq, hrun]

theorem matchAt_none_info {c : Char} {cs : List Char}
    (h : matchAt (c :: cs) = none) (hc : isLineTerm c = false) :
    ∃ d ∈ cs, isLineTerm d = false := by
  simp only [matchAt_eq] at h
  set run := takeWhileUpTo 250 (fun d => !(isLineTerm d)) (c :: cs) with hrun
  have hrc : run = c :: takeWhileUpTo 249 (fun d => !(isLineTerm d)) cs := by
    rw [hrun, show (250 : Nat) = 249 + 1 from rfl]
    simp only [takeWhileUpTo, hc]
    rfl
  split at h
  · rename_i h0
    rw [hrc] at h0
    simp at h0
  · rename_i h0
    split at h
    · simp at h
    · rename_i c' rs heq
      split at h
      · simp at h
      · rename_i hws
        split at h
        · simp at h
        · -- c' is not whitespace, hence not a line terminator, and c' is in cs
          have hc' : isLineTerm c' = false := by
            by_contra hcon
            exact hws (by simpa using lt_imp_ws c' (by simpa using hcon))
          have hmem : c' ∈ cs := by
            have h1 : run.length = (takeWhileUpTo 249 (fun d => !(isLineTerm d)) cs).length + 1 := by
              rw [hrc]; simp
            rw [h1, List.drop_succ_cons] at heq
            exact List.mem_of_mem_drop (heq ▸ List.mem_cons_self c' rs)
          exact ⟨c', hmem, hc'⟩

theorem jsMatchAll_nil_iff (fuel : Nat) (l : List Char) (hf : l.length ≤ fuel) :
    (jsMatchAll fuel l = [] ↔ l.all isLineTerm = true) := by
  induction fuel generalizing l with
  | zero =>
    have : l = [] := List.eq_nil_of_length_eq_zero (by omega)
    subst this
    simp [jsMatchAll]
  | succ fuel ih =>
    cases l with
    | nil => simp [jsMatchAll_nil]
    | cons c cs =>
      rw [jsMatchAll_cons]
      by_cases hc : isLineTerm c = true
      · rw [matchAt_LT_head hc]
        have := ih cs (by simpa using Nat.le_of_succ_le_succ (by simpa using hf))
        simpa [hc] using this
      · have hc' : isLineTerm c = false := by simpa using hc
        cases hm : matchAt (c :: cs) with
        | some p =>
          obtain ⟨m, r⟩ := p
          simp only
          constructor
          · intro hh; cases hh
          · intro hall
            simp only [List.all_cons, Bool.and_eq_true] at hall
            rw [hc'] at hall
            cases hall.1
        | none =>
          simp only
          obtain ⟨d, hd, hdlt⟩ := matchAt_none_info hm hc'
          have ihc := ih cs (by simpa using Nat.le_of_succ_le_succ (by simpa using hf))
          constructor
          · intro hh
            rw [ihc] at hh
            have := List.all_eq_true.mp hh d hd
            rw [hdlt] at this
            cases this
          · intro hall
            simp only [List.all_cons, Bool.and_eq_true] at hall
            rw [hc'] at hall
            cases hall.1

theorem jsMatchAll_flatten (fuel : Nat) (l : List Char) (hf : l.length ≤ fuel)
    (hLT : l.all (fun c => !(isLineTerm c)) = true)
    (hlr : hasLongRun l = false) :
    (jsMatchAll fuel l).flatten = l := by
  induction fuel generalizing l with
  | zero =>
    have : l = [] := List.eq_nil_of_length_eq_zero (by omega)
    subst this
    simp [jsMatchAll]
  | succ fuel ih =>
    cases l with
    | nil => simp [jsMatchAll_nil]
    | cons c cs =>
      rw [jsMatchAll_cons]
      cases hm : matchAt (c :: cs) with
      | none => exact absurd hm (matchAt_success (c :: cs) (by simp) hLT hlr)
      | some p =>
        obtain ⟨m, r⟩ := p
        obtain ⟨happ, hmne⟩ := matchAt_some_append hm
        have hr : r = (c :: cs).drop m.length := by
          rw [← happ, List.drop_left]
        have hlenm : 1 ≤ m.length := by
          cases m with
          | nil => exact absurd rfl hmne
          | cons a as => simp
        have hrlen : r.length ≤ fuel := by
          have := congrArg List.length happ
          simp only [List.length_append, List.length_cons] at this hf
          omega
        have hrLT : r.all (fun d => !(isLineTerm d)) = true := by
          rw [hr]; exact all_drop _ hLT
        have hrlr : hasLongRun r = false := by
          rw [hr]; exact hasLongRun_drop_false _ hlr
        simp only [List.flatten_cons]
        rw [ih r hrlen hrLT hrlr, happ]

theorem getLast?_take_succ (l : List Char) (n : Nat) (h : n < l.length) :
    (l.take (n + 1)).getLast? = l.get? n := by
  induction l generalizing n with
  | nil => simp at h
  | cons c cs ih =>
    cases n with
    | zero => simp
    | succ n =>
      have h' : n < cs.length := by simpa using h
      rw [List.take_succ_cons, List.get?_cons_succ, ← ih n h']
      cases htk : cs.take (n + 1) with
      | nil =>
        exfalso
        rw [List.take_eq_nil_iff] at htk
        rcases htk with htk | htk
        · omega
        · subst htk; simp at h'
      | cons d ds => exact List.getLast?_cons_cons

theorem get?_tail (l : List Char) (n : Nat) (h : l ≠ []) :
    l.tail.get? n = l.get? (n + 1) := by
  cases l with
  | nil => exact absurd rfl h
  | cons c cs => simp

theorem matchAt_chunk_shape {l m r : List Char} (h : matchAt l = some (m, r)) :
    m.length ≤ 251 ∧ (endsWithWs m = true ∨ r = []) := by
  have hle := twu_length_le 250 (fun c => !(isLineTerm c)) l
  simp only [matchAt_eq] at h
  set run := takeWhileUpTo 250 (fun c => !(isLineTerm c)) l with hrun
  split at h
  · exact absurd h (by simp)
  · rename_i h0
    have hrne : run ≠ [] := fun hh => h0 (by simp [hh])
    split at h
    · rename_i heq
      simp only [Option.some.injEq, Prod.mk.injEq] at h
      obtain ⟨rfl, rfl⟩ := h
      exact ⟨by omega, Or.inr rfl⟩
    · rename_i c' rs heq
      split at h
      · rename_i hws
        simp only [Option.some.injEq, Prod.mk.injEq] at h
        obtain ⟨rfl, rfl⟩ := h
        refine ⟨by simp; omega, Or.inl ?_⟩
        unfold endsWithWs
        rw [List.getLast?_concat]
        simpa using hws
      · split at h
        · rename_i j hlast
          simp only [Option.some.injEq, Prod.mk.injEq] at h
          obtain ⟨rfl, rfl⟩ := h
          obtain ⟨hjlt, d, hd, hpd⟩ := lastIdxWith_some isJsWs run.tail j hlast
          have hjrun : j + 1 < run.length := by
            have h1 : run.tail.length = run.length - 1 := List.length_tail run
            have h2 : run.length ≠ 0 := fun hh => hrne (List.eq_nil_of_length_eq_zero hh)
            omega
          constructor
          · have : (run.take (j + 2)).length ≤ run.length := by
              simp [List.length_take]
            omega
          · refine Or.inl ?_
            unfold endsWithWs
            rw [show j + 2 = (j + 1) + 1 from rfl, getLast?_take_succ run (j + 1) hjrun,
              ← get?_tail run j hrne, hd]
            exact hpd
        · exact absurd h (by simp)

theorem jsMatchAll_cons_none (fuel : Nat) (x : Char) (xs : List Char)
    (hm : matchAt (x :: xs) = none) :
    jsMatchAll (fuel + 1) (x :: xs) = jsMatchAll fuel xs := by
  rw [jsMatchAll_cons, hm]

theorem jsMatchAll_cons_some (fuel : Nat) (x : Char) (xs m r : List Char)
    (hm : matchAt (x :: xs) = some (m, r)) :
    jsMatchAll (fuel + 1) (x :: xs) = m :: jsMatchAll fuel r := by
  rw [jsMatchAll_cons, hm]

theorem jsMatchAll_shape (fuel : Nat) (l : List Char) (c : List Char)
    (hc : c ∈ jsMatchAll fuel l) :
    c ≠ [] ∧ c.length ≤ 251 ∧
      (endsWithWs c = true ∨ (jsMatchAll fuel l).getLast? = some c) := by
  induction fuel generalizing l with
  | zero => simp [jsMatchAll] at hc
  | succ fuel ih =>
    cases l with
    | nil => rw [jsMatchAll_nil] at hc; simp at hc
    | cons x xs =>
      cases hm : matchAt (x :: xs) with
      | none =>
        rw [jsMatchAll_cons_none fuel x xs hm] at hc ⊢
        exact ih xs hc
      | some p =>
        obtain ⟨m, r⟩ := p
        rw [jsMatchAll_cons_some fuel x xs m r hm] at hc ⊢
        obtain ⟨happ, hmne⟩ := matchAt_some_append hm
        obtain ⟨hml, hshape⟩ := matchAt_chunk_shape hm
        simp only [List.mem_cons] at hc
        rcases hc with rfl | hc
        · refine ⟨hmne, hml, ?_⟩
          rcases hshape with hws | hrnil
          · exact Or.inl hws
          · subst hrnil
            rw [jsMatchAll_nil]
            exact Or.inr rfl
        · obtain ⟨h1, h2, h3⟩ := ih r hc
          refine ⟨h1, h2, ?_⟩
          rcases h3 with hws | hlast
          · exact Or.inl hws
          · refine Or.inr ?_
            have hne2 : jsMatchAll fuel r ≠ [] := by
              intro hh
              rw [hh] at hc
              simp at hc
            cases hjs : jsMatchAll fuel r with
            | nil => exact absurd hjs hne2
            | cons y ys =>
              rw [hjs] at hlast
              rw [List.getLast?_cons_cons, hlast]

/-- C5, counterexample: the claim "chunk(text) is empty iff text is
empty or whitespace-only" fails at the single-space text: a space is matched
by `.` and the regex yields the chunk `[" "]`, yet `" "` is whitespace-only
and not empty, so the stated equivalence is false. -/
theorem c5_counterexample :
    ¬ (chunksOfText " " = [] ↔ (" " = "" ∨ specWhitespaceOnly " " = true)) := by
  decide

/-- C5, amended: `chunk(text)` is the empty sequence if and only if every
character of the text is a line terminator (U+000A, U+000D, U+2028, U+2029);
in particular the empty text produces no chunks, but a text of spaces or
tabs produces whitespace chunks. -/
theorem c5_amended :
    ∀ s : String, chunksOfText s = [] ↔ s.data.all isLineTerm = true :=
  fun s => jsMatchAll_nil_iff s.data.length s.data le_rfl

set_option maxRecDepth 10000 in
/-- C6, counterexample: the round-trip claim fails exactly on the edge case
it singles out.  For a single word of 251 identical letters the scan finds no
break position, advances past the first character, and matches only the last
250: joining the chunks loses the first character. -/
theorem c6_counterexample :
    (chunksOfText (String.mk (List.replicate 251 'a'))).flatten ≠
      (String.mk (List.replicate 251 'a')).data := by
  decide

/-- C6, amended: concatenating the chunk sequence in order reproduces the
original text exactly whenever the text contains no line terminators and no
250-character whitespace-free stretch; texts with over-long words (or with
skipped line terminators) lose the characters the scan stepped over. -/
theorem c6_amended :
    ∀ s : String,
      s.data.all (fun c => !(isLineTerm c)) = true →
      hasLongRun s.data = false →
      (chunksOfText s).flatten = s.data :=
  fun s h1 h2 => jsMatchAll_flatten s.data.length s.data le_rfl h1 h2

/-- Witness for `c6_amended` at a concrete sentence. -/
theorem c6_amended_witness :
    (chunksOfText "Is this working? Yes.").flatten = "Is this working? Yes.".data :=
  c6_amended "Is this working? Yes." (by decide) (by decide)

/-- C10: every chunk produced by the chunking regex is non-empty and at most
251 characters long (up to 250 window characters plus the captured
whitespace delimiter), and every chunk other than the final one ends with
its captured whitespace character — so a chunk broken after a sentence ends
in whitespace, with the sentence punctuation second-to-last. -/
theorem c10_chunk_shape :
    ∀ (l : List Char) (c : List Char), c ∈ chunksList l →
      c ≠ [] ∧ c.length ≤ 251 ∧
        (endsWithWs c = true ∨ (chunksList l).getLast? = some c) :=
  fun l c hc => jsMatchAll_shape l.length l c hc

set_option maxRecDepth 10000 in
/-- Witness for `c10_chunk_shape`: the second chunk of a two-chunk text is
non-empty, within the bound, and is the list's last entry. -/
theorem c10_chunk_shape_witness :
    (['b'] : List Char) ≠ [] ∧ (['b'] : List Char).length ≤ 251 ∧
      (endsWithWs ['b'] = true ∨
        (chunksList (List.replicate 249 'a' ++ [' ', 'b'])).getLast? = some ['b']) :=
  c10_chunk_shape (List.replicate 249 'a' ++ [' ', 'b']) ['b'] (by decide)

theorem countWordsGo_pos (l : List Char) (h : ∃ c ∈ l, isJsWs c = false) :
    1 ≤ countWordsGo false l := by
  induction l with
  | nil => simp at h
  | cons c cs ih =>
    by_cases hc : isJsWs c = true
    · obtain ⟨d, hd, hdw⟩ := h
      rcases List.mem_cons.mp hd with rfl | hd'
      · rw [hc] at hdw; cases hdw
      · simpa [countWordsGo, hc] using ih ⟨d, hd', hdw⟩
    · simp [countWordsGo, hc]

theorem dropWhile_head_not (p : Char → Bool) (l : List Char) (c : Char) (t : List Char)
    (h : l.dropWhile p = c :: t) : p c = false := by
  induction l with
  | nil => simp [List.dropWhile] at h
  | cons a as ih =>
    rw [List.dropWhile_cons] at h
    by_cases ha : p a = true
    · rw [if_pos ha] at h
      exact ih h
    · rw [if_neg ha] at h
      injection h with h1 _
      subst h1
      simpa using ha

theorem jsTrim_word (l : List Char) (h : jsTrim l ≠ []) :
    ∃ c ∈ jsTrim l, isJsWs c = false := by
  unfold jsTrim at h ⊢
  cases hx : (l.dropWhile isJsWs).reverse.dropWhile isJsWs with
  | nil => rw [hx] at h; simp at h
  | cons c t =>
    have hc : isJsWs c = false := dropWhile_head_not isJsWs _ c t hx
    refine ⟨c, ?_, hc⟩
    simp

theorem jsSplitWsCount_eq_max (l : List Char) :
    jsSplitWsCount l = max 1 (specWordCount l) := by
  unfold jsSplitWsCount specWordCount
  by_cases h : (jsTrim l).isEmpty
  · rw [if_pos h]
    have he : jsTrim l = [] := by simpa using h
    rw [he]
    rfl
  · rw [if_neg h]
    have hne : jsTrim l ≠ [] := by simpa using h
    have h1 : 1 ≤ countWords (jsTrim l) := countWordsGo_pos _ (jsTrim_word l hne)
    unfold countWords at h1 ⊢
    omega

/-- C8, counterexample: on the empty text the code computes 1 "word"
(JavaScript `"".split(/\s+/)` is `[""]`), so the estimate is 0.4 s, while the
spec formula with zero words gives 0 s. -/
theorem c8_counterexample :
    estimateReadingTime [] 1 = 2/5 ∧ specEstimate [] 1 = 0 ∧
    estimateReadingTime [] 1 ≠ specEstimate [] 1 := by
  have h1 : estimateReadingTime [] 1 = 2/5 := by
    have : jsSplitWsCount [] = 1 := by decide
    simp only [estimateReadingTime, this]
    norm_num
  have h2 : specEstimate [] 1 = 0 := by
    have : specWordCount [] = 0 := by decide
    simp only [specEstimate, this]
    norm_num
  exact ⟨h1, h2, by rw [h1, h2]; norm_num⟩

/-- C8, amended: the estimate is `max 1 words / (150/rate) * 60` seconds where
`words` is the number of whitespace-separated words of the trimmed text, and
the quoted instance holds: five words at rate 1.0 estimate to 2.0 seconds. -/
theorem c8_estimate_formula :
    (∀ (l : List Char) (rate : ℚ),
        estimateReadingTime l rate =
          ((max 1 (specWordCount l) : Nat) : ℚ) / (150 / rate) * 60) ∧
    estimateReadingTime "one two three four five".data 1 = 2 := by
  constructor
  · intro l rate
    simp only [estimateReadingTime, jsSplitWsCount_eq_max]
  · have h5 : jsSplitWsCount "one two three four five".data = 5 := by decide
    simp only [estimateReadingTime, h5]
    norm_num

theorem digit_not_ws (c : Char) (h : isDecDigit c = true) : isJsWs c = false := by
  simp only [isDecDigit, Bool.and_eq_true, decide_eq_true_eq] at h
  have hn0 : 48 ≤ c.toNat := h.1
  have hn9 : c.toNat ≤ 57 := h.2
  have key : ∀ (w : Char), (w.toNat < 48 ∨ 57 < w.toNat) → ¬ c = w := by
    intro w hw hh
    have h2 := congrArg Char.toNat hh
    omega
  simp only [isJsWs, Bool.or_eq_false_iff, Bool.and_eq_false_iff,
    decide_eq_false_iff_not, and_assoc]
  exact ⟨key _ (by decide), key _ (by decide), key _ (by decide), key _ (by decide),
    key _ (by decide), key _ (by decide), key _ (by decide), key _ (by decide),
    Or.inl (fun hr => by have h2 : 8192 ≤ c.toNat := hr; omega),
    key _ (by decide), key _ (by decide), key _ (by decide), key _ (by decide),
    key _ (by decide), key _ (by decide)⟩

theorem digit_ne (c w : Char) (h : isDecDigit c = true)
    (hw : w.toNat < 48 ∨ 57 < w.toNat) : c ≠ w := by
  simp only [isDecDigit, Bool.and_eq_true, decide_eq_true_eq] at h
  have hn0 : 48 ≤ c.toNat := h.1
  have hn9 : c.toNat ≤ 57 := h.2
  intro hh
  have h2 := congrArg Char.toNat hh
  omega

theorem takeWhile_all_self (p : Char → Bool) (l : List Char)
    (h : l.all p = true) : l.takeWhile p = l := by
  induction l with
  | nil => rfl
  | cons c cs ih =>
    simp only [List.all_cons, Bool.and_eq_true] at h
    rw [List.takeWhile_cons, if_pos h.1, ih h.2]

theorem jsParseIntBody_digits (l : List Char) (hne : l ≠ [])
    (hall : l.all isDecDigit = true) :
    jsParseIntBody l ≠ none := by
  unfold jsParseIntBody
  split
  · rename_i x r
    -- l = '0' :: x :: r; x is a digit, so never 'x'/'X'
    simp only [List.all_cons, Bool.and_eq_true] at hall
    have hx : (x = 'x' || x = 'X') = false := by
      have h1 : x ≠ 'x' := digit_ne x 'x' hall.2.1 (by decide)
      have h2 : x ≠ 'X' := digit_ne x 'X' hall.2.1 (by decide)
      simp [h1, h2]
    rw [hx]
    simp only [Bool.false_eq_true, if_false]
    have hself : ('0' :: x :: r).takeWhile isDecDigit = '0' :: x :: r := by
      apply takeWhile_all_self
      simp [hall.1, hall.2.1, hall.2.2]
    rw [hself]
    simp
  · have hself : l.takeWhile isDecDigit = l := takeWhile_all_self _ _ hall
    rw [hself]
    cases l with
    | nil => exact absurd rfl hne
    | cons c cs => simp

theorem jsParseInt_digits (s : List Char) (h : specNumericId s = true) :
    jsParseInt s ≠ none := by
  simp only [specNumericId, Bool.and_eq_true] at h
  obtain ⟨hne', hall⟩ := h
  cases s with
  | nil => simp at hne'
  | cons c cs =>
    have hallc := hall
    simp only [List.all_cons, Bool.and_eq_true] at hallc
    have hcws : isJsWs c = false := digit_not_ws c hallc.1
    unfold jsParseInt
    rw [List.dropWhile_cons, if_neg (by simp [hcws])]
    have hcm : c ≠ '-' := digit_ne c '-' hallc.1 (by decide)
    have hcp : c ≠ '+' := digit_ne c '+' hallc.1 (by decide)
    split
    · rename_i r heq
      injection heq with h1 _
      exact absurd h1 hcm
    · rename_i r heq
      injection heq with h1 _
      exact absurd h1 hcp
    · intro hnone
      cases hb : jsParseIntBody (c :: cs) with
      | none => exact jsParseIntBody_digits (c :: cs) (by simp) hall hb
      | some n =>
        rw [hb] at hnone
        simp at hnone

theorem getDocumentRoute_parse_none {store : List StoredDoc} {s : List Char}
    (hm : jsParseInt s = none) :
    getDocumentRoute store s = DocResponse.badRequest := by
  unfold getDocumentRoute
  rw [hm]

theorem getDocumentRoute_parse_some {store : List StoredDoc} {s : List Char} {i : Int}
    (hm : jsParseInt s = some i) :
    getDocumentRoute store s =
      (match getDocument store i with
       | none => DocResponse.notFound
       | some d => DocResponse.ok d) := by
  unfold getDocumentRoute
  rw [hm]

/-- C9, counterexample: "non-numeric id yields 400" fails for `"12abc"` —
`parseInt` extracts 12 from it, so the route answers 404 (id 12 absent from
the empty store) instead of 400, although `"12abc"` is not numeric. -/
theorem c9_counterexample :
    specNumericId "12abc".data = false ∧
    getDocumentRoute [] "12abc".data = DocResponse.notFound ∧
    DocResponse.notFound ≠ DocResponse.badRequest := by
  refine ⟨by decide, by decide, by decide⟩

/-- C9, amended: the route answers 400 exactly when `parseInt` cannot
extract a leading integer from the id (trailing garbage after digits is
ignored); when an integer is parsed, the response is 404 if no stored
document carries it and the document itself otherwise; a genuinely numeric
(all-digit, non-empty) id always parses, so it never receives 400. -/
theorem c9_get_by_id :
    ∀ (store : List StoredDoc) (s : List Char),
      (getDocumentRoute store s = DocResponse.badRequest ↔ jsParseInt s = none) ∧
      (∀ i : Int, jsParseInt s = some i → getDocument store i = none →
        getDocumentRoute store s = DocResponse.notFound) ∧
      (∀ (i : Int) (d : StoredDoc), jsParseInt s = some i → getDocument store i = some d →
        getDocumentRoute store s = DocResponse.ok d) ∧
      (specNumericId s = true → jsParseInt s ≠ none) := by
  intro store s
  refine ⟨?_, ?_, ?_, jsParseInt_digits s⟩
  · constructor
    · intro h
      cases hm : jsParseInt s with
      | none => rfl
      | some i =>
        exfalso
        rw [getDocumentRoute_parse_some hm] at h
        cases hd : getDocument store i with
        | none => rw [hd] at h; exact DocResponse.noConfusion h
        | some d => rw [hd] at h; exact DocResponse.noConfusion h
    · intro h
      exact getDocumentRoute_parse_none h
  · intro i hm hd
    rw [getDocumentRoute_parse_some hm, hd]
  · intro i d hm hd
    rw [getDocumentRoute_parse_some hm, hd]

/-- Witness for `c9_get_by_id`: a one-document store answers id "1" with
that document. -/
theorem c9_get_by_id_witness :
    getDocumentRoute [c9Doc] ['1'] = DocResponse.ok c9Doc ∧
    jsParseInt ['1'] ≠ none := by
  have h := c9_get_by_id [c9Doc] ['1']
  exact ⟨h.2.2.1 1 c9Doc (by decide) (by decide), h.2.2.2 (by decide)⟩
